import Mathlib

/-!
Shallow embedding of `src/brainiak_utils.py` (functions `_double_gamma_hrf`
and `convolve_hrf`) and proofs about it.

Modelling conventions:
* Python floats are modelled as elements of an arbitrary `LinearOrderedField`;
  the program itself is the instantiation at `ℝ` (with `Real.exp` and real
  `rpow` for `math.exp` / `math.pow`).  Floating-point rounding is idealized
  away; all claims here are about exact arithmetic.
* The float parameters `temporal_resolution` and `tr_duration` are modelled as
  exact rationals (every Python float is a rational), so that the integer
  arithmetic `int(temporal_resolution * tr_duration)` is computable.
* NumPy's non-raising degenerate results of division by zero (`0/0 = nan`,
  `x/0 = ±inf`) are modelled by the type `PyVal`.
* Exceptions raised by the Python code (`ZeroDivisionError` at line 123,
  `NameError` for the never-assigned `hrf` at line 138 or `signal_function`
  at line 157, `ValueError` from `np.convolve` on an empty input or from
  `np.max` on an empty vector at line 149) are modelled by `Except PyErr`.
* Negative strides (possible only for negative `temporal_resolution *
  tr_duration`, outside the spec's positive-parameter domain and outside
  every claim) are not modelled faithfully: `Int.toNat` sends them to `0`.
-/

/-- Python's `int()` applied to an exact rational: truncation toward zero
(`int(x)` floors positive values and ceils negative ones). -/
def pyInt (q : ℚ) : ℤ := if 0 ≤ q then q.num / (q.den : ℤ) else -((-q).num / (((-q).den : ℤ)))

theorem pyInt_of_nonneg (q : ℚ) (h : 0 ≤ q) : pyInt q = Int.floor q := by
  simp [pyInt, h, Rat.floor_def]

/-- A NumPy floating-point cell value: either an ordinary number or one of the
degenerate results `nan` / `±inf` that NumPy produces instead of raising. -/
inductive PyVal (α : Type) where
  | val : α → PyVal α
  | nan : PyVal α
  | posInf : PyVal α
  | negInf : PyVal α
deriving DecidableEq

/-- The exceptions the code under `src/` can raise. -/
inductive PyErr where
  | zeroDivisionError : PyErr
  | nameError : String → PyErr
  | valueErrorEmptyConvolve : PyErr
  | valueErrorEmptyMax : PyErr
deriving DecidableEq

/-- The `hrf_type` argument of `convolve_hrf`: the exact string
`'double_gamma'`, a Python list (an explicit HRF sequence), or any other value
(another string, a non-list array, ...), for which neither branch of
lines 126-129 assigns `hrf`. -/
inductive HrfType (α : Type) where
  | double_gamma : HrfType α
  | explicit_list : List α → HrfType α
  | other : HrfType α

/-- A dense 2-D `stimfunction` array: `nrows` timepoints by `ncols`
timecourses, with `entry r c` the cell at row `r`, column `c`. -/
structure Stim (α : Type) where
  nrows : ℕ
  ncols : ℕ
  entry : ℕ → ℕ → α

/-- `stimfunction[:, c]`: column `c` as a list of `nrows` values. -/
def stimColumn {α : Type} (s : Stim α) (c : ℕ) : List α :=
  (List.range s.nrows).map (fun r => s.entry r c)

/-- `np.convolve(a, v)` in its default `'full'` mode: the linear convolution,
of length `a.length + v.length - 1`, with entry `n` equal to
`∑ k, a[k] * v[n - k]` over the indices in range. -/
def npConvolve {α : Type} [LinearOrderedField α] (a v : List α) : List α :=
  (List.range (a.length + v.length - 1)).map (fun n =>
    ((List.range a.length).map (fun k =>
      if k ≤ n ∧ n - k < v.length then a.getD k 0 * v.getD (n - k) 0 else 0)).sum)

/-- Every `s`-th element of a list, starting with the head (the semantics of
`l[::s]` for `1 ≤ s`). -/
def everyNth {α : Type} (s : ℕ) : List α → List α
  | [] => []
  | a :: t => a :: everyNth s (t.drop (s - 1))
termination_by l => l.length
decreasing_by simp; omega

/-- Python slice `l[start::s]` for a nonnegative step `s ≥ 1`. -/
def pySliceStep {α : Type} (l : List α) (start s : ℕ) : List α :=
  everyNth s (l.drop start)

/-- `np.max` of a vector of ordinary numbers (the empty case never feeds this
function: `np.max([])` raises, which `convolveColumn` models separately). -/
def listMax {α : Type} [LinearOrderedField α] : List α → α
  | [] => 0
  | a :: t => t.foldl max a

/-- The ordinary numbers among a list of cell values. -/
def pyVals {α : Type} : List (PyVal α) → List α :=
  List.filterMap (fun p => match p with | PyVal.val x => some x | _ => none)

/-- The maximum absolute value of a list of numbers. -/
def listMaxAbs {α : Type} [LinearOrderedField α] (l : List α) : α :=
  listMax (l.map (fun x => |x|))

/-- NumPy scalar division `x / m` as performed elementwise on line 149: for a
zero divisor it does not raise but produces `nan` (for `0/0`) or `±inf`. -/
def npDiv {α : Type} [LinearOrderedField α] (x m : α) : PyVal α :=
  if m = 0 then (if x = 0 then PyVal.nan else if 0 < x then PyVal.posInf else PyVal.negInf)
  else PyVal.val (x / m)

/-- Multiply an ordinary cell value by a scalar (degenerate values unchanged). -/
def scalePyVal {α : Type} [LinearOrderedField α] (a : α) : PyVal α → PyVal α
  | PyVal.val x => PyVal.val (a * x)
  | p => p

/-- Lines 44-71 of the source: build the double gamma HRF.  The list is
initialized to `int(30 * temporal_resolution)` zeros and the loop writes
indices `0 .. len - 2`; `apow`/`aexp` abstract `math.pow`/`math.exp` (the
program instantiates them with the real power and exponential). -/
def _double_gamma_hrf {α : Type} [LinearOrderedField α] (apow : α → α → α) (aexp : α → α)
    (response_delay undershoot_delay response_dispersion undershoot_dispersion
      response_scale undershoot_scale : α) (temporal_resolution : ℚ) : List α :=
  let n : ℕ := (pyInt (30 * temporal_resolution)).toNat
  let response_peak := response_delay * response_dispersion
  let undershoot_peak := undershoot_delay * undershoot_dispersion
  (List.range (n - 1)).foldl (fun (hrf : List α) (hrf_counter : ℕ) =>
    let t : α := (hrf_counter : α) / ((temporal_resolution : ℚ) : α)
    let resp_pow := apow (t / response_peak) response_delay
    let resp_exp := aexp (-(t - response_peak) / response_dispersion)
    let response_model := response_scale * resp_pow * resp_exp
    let undershoot_pow := apow (t / undershoot_peak) undershoot_delay
    let undershoot_exp := aexp (-(t - undershoot_peak / undershoot_dispersion))
    let undershoot_model := undershoot_scale * undershoot_pow * undershoot_exp
    hrf.set hrf_counter (response_model - undershoot_model))
    (List.replicate n 0)

/-- Lines 126-129 of the source: which HRF sequence (if any) gets assigned to
the local `hrf` for a given `hrf_type`.  The `'double_gamma'` branch calls
`_double_gamma_hrf` with its default shape parameters (`6`, `12`, `0.9`,
`0.9`, `1`, `0.035`) and the supplied `temporal_resolution`; for any other
non-list value nothing is assigned. -/
def hrfOf {α : Type} [LinearOrderedField α] (apow : α → α → α) (aexp : α → α)
    (hrf_type : HrfType α) (temporal_resolution : ℚ) : Option (List α) :=
  match hrf_type with
  | HrfType.double_gamma =>
      some (_double_gamma_hrf apow aexp 6 12 (9/10) (9/10) 1 (7/200) temporal_resolution)
  | HrfType.explicit_list l => some l
  | HrfType.other => none

/-- The truncated, downsampled convolution of one column (lines 138-145):
`np.convolve(col, hrf)[:duration * stride][int(stride / 2)::stride]`. -/
def colVox {α : Type} [LinearOrderedField α] (col hrf : List α) (duration stride : ℕ) :
    List α :=
  pySliceStep ((npConvolve col hrf).take (duration * stride)) (stride / 2) stride

/-- Line 149: `signal_vox / np.max(signal_vox)` elementwise. -/
def scaleVox {α : Type} [LinearOrderedField α] (v : List α) : List (PyVal α) :=
  v.map (fun x => npDiv x (listMax v))

/-- The body of the per-column loop (lines 138-149).  `np.convolve` raises on
an empty input; with scaling on, `np.max` raises on an empty vector. -/
def convolveColumn {α : Type} [LinearOrderedField α] (col hrf : List α)
    (duration stride : ℕ) (scale_function : Bool) : Except PyErr (List (PyVal α)) :=
  if col.length = 0 ∨ hrf.length = 0 then Except.error PyErr.valueErrorEmptyConvolve
  else
    let signal_vox := colVox col hrf duration stride
    if scale_function then
      if signal_vox = [] then Except.error PyErr.valueErrorEmptyMax
      else Except.ok (scaleVox signal_vox)
    else Except.ok (signal_vox.map PyVal.val)

/-- Run the per-column computation over a list of column indices, stopping at
the first raised exception (the loop of lines 135-155, which raises out of the
first failing iteration). -/
def mapExcept {α : Type} (f : ℕ → Except PyErr (List (PyVal α))) :
    List ℕ → Except PyErr (List (List (PyVal α)))
  | [] => Except.ok []
  | c :: rest =>
    match f c with
    | Except.error e => Except.error e
    | Except.ok v =>
      match mapExcept f rest with
      | Except.error e => Except.error e
      | Except.ok vs => Except.ok (v :: vs)

/-- Line 118 of the source: the shape sanity check whose outcome is reported
through `logger.warning`.

Modelled from the spec: the warning emitter `logger` is referenced on line 119
but defined nowhere under `src/`; the spec (sections 1, 4.2) scopes
"logging/warning infrastructure" out of the repository and states that the
check "emits a warning (does not fail)".  The warning is therefore modelled as
this pure side-channel flag and has no effect on `convolve_hrf`'s result. -/
def convolve_hrf_warns {α : Type} (stimfunction : Stim α) : Bool :=
  decide (stimfunction.nrows < stimfunction.ncols)

/-- Lines 73-157 of the source, `convolve_hrf`.  The result is the list of the
output matrix's columns (`signal_function[:, c]` for `c < ncols`), or the
exception raised.  Control flow follows the source: `stride` and `duration`
(line 122-123, with `ZeroDivisionError` when `stride == 0`), the `hrf_type`
dispatch (lines 126-129), then the per-column loop; a run with zero columns
reaches `return signal_function` with `signal_function` never assigned, and a
run with `hrf` never assigned raises at its first use inside the loop. -/
def convolve_hrf {α : Type} [LinearOrderedField α] (apow : α → α → α) (aexp : α → α)
    (stimfunction : Stim α) (tr_duration : ℚ) (hrf_type : HrfType α)
    (scale_function : Bool) (temporal_resolution : ℚ) :
    Except PyErr (List (List (PyVal α))) :=
  let strideZ := pyInt (temporal_resolution * tr_duration)
  if strideZ = 0 then Except.error PyErr.zeroDivisionError
  else
    let stride := strideZ.toNat
    let duration := stimfunction.nrows / stride
    let hrfOpt := hrfOf apow aexp hrf_type temporal_resolution
    if stimfunction.ncols = 0 then Except.error (PyErr.nameError "signal_function")
    else
      match hrfOpt with
      | none => Except.error (PyErr.nameError "hrf")
      | some hrf =>
          mapExcept
            (fun c => convolveColumn (stimColumn stimfunction c) hrf duration stride
              scale_function)
            (List.range stimfunction.ncols)

/-- `math.pow` on reals (nonnegative bases in all defined uses): real rpow. -/
noncomputable def rpowFn : ℝ → ℝ → ℝ := fun x y => x ^ y

/-- The program itself: `convolve_hrf` over the reals, with `math.pow` and
`math.exp` interpreted as the real power and exponential. -/
noncomputable def convolve_hrfR (stimfunction : Stim ℝ) (tr_duration : ℚ)
    (hrf_type : HrfType ℝ) (scale_function : Bool) (temporal_resolution : ℚ) :
    Except PyErr (List (List (PyVal ℝ))) :=
  convolve_hrf rpowFn Real.exp stimfunction tr_duration hrf_type scale_function
    temporal_resolution

/-! ### Lemmas about the write-loop of `_double_gamma_hrf` -/

theorem foldl_set_length {α : Type} (v : ℕ → α) (ns : List ℕ) (l : List α) :
    (ns.foldl (fun acc j => acc.set j (v j)) l).length = l.length := by
  induction ns generalizing l with
  | nil => rfl
  | cons i t ih => simp [ih, List.length_set]

theorem foldl_set_getElem?_lt {α : Type} (v : ℕ → α) (m : ℕ) (l : List α) (i : ℕ)
    (him : i < m) (hil : i < l.length) :
    ((List.range m).foldl (fun acc j => acc.set j (v j)) l)[i]? = some (v i) := by
  induction m generalizing i with
  | zero => omega
  | succ m ih =>
    rw [List.range_succ, List.foldl_append]
    rcases Nat.lt_succ_iff_lt_or_eq.mp him with hlt | heq
    · simpa [List.getElem?_set, Nat.ne_of_gt hlt] using ih i hlt hil
    · subst heq
      have hlen : i < ((List.range i).foldl (fun acc j => acc.set j (v j)) l).length := by
        rw [foldl_set_length]; exact hil
      simp [List.getElem?_set, hlen]

theorem foldl_set_getElem?_ge {α : Type} (v : ℕ → α) (m : ℕ) (l : List α) (i : ℕ)
    (him : m ≤ i) :
    ((List.range m).foldl (fun acc j => acc.set j (v j)) l)[i]? = l[i]? := by
  induction m with
  | zero => rfl
  | succ m ih =>
    rw [List.range_succ, List.foldl_append]
    have hne : m ≠ i := by omega
    simp [List.getElem?_set, hne, ih (by omega)]

theorem dg_length {α : Type} [LinearOrderedField α] (apow : α → α → α) (aexp : α → α)
    (rd ud rdp udp rs us : α) (tres : ℚ) :
    (_double_gamma_hrf apow aexp rd ud rdp udp rs us tres).length =
      (pyInt (30 * tres)).toNat := by
  simp only [_double_gamma_hrf]
  rw [foldl_set_length]
  simp

theorem dg_getD {α : Type} [LinearOrderedField α] (apow : α → α → α) (aexp : α → α)
    (rd ud rdp udp rs us : α) (tres : ℚ) (i : ℕ)
    (h : i + 1 < (pyInt (30 * tres)).toNat) :
    (_double_gamma_hrf apow aexp rd ud rdp udp rs us tres).getD i 0 =
      rs * apow (((i : α) / ((tres : ℚ) : α)) / (rd * rdp)) rd *
          aexp (-(((i : α) / ((tres : ℚ) : α)) - rd * rdp) / rdp) -
        us * apow (((i : α) / ((tres : ℚ) : α)) / (ud * udp)) ud *
          aexp (-(((i : α) / ((tres : ℚ) : α)) - ud * udp / udp)) := by
  simp only [_double_gamma_hrf, List.getD_eq_getElem?_getD]
  rw [foldl_set_getElem?_lt _ _ _ _ (by omega) (by simp; omega)]
  rfl

theorem dg_getLast?_of_pos {α : Type} [LinearOrderedField α] (apow : α → α → α)
    (aexp : α → α) (rd ud rdp udp rs us : α) (tres : ℚ)
    (h : 1 ≤ (pyInt (30 * tres)).toNat) :
    (_double_gamma_hrf apow aexp rd ud rdp udp rs us tres).getLast? = some 0 := by
  rw [List.getLast?_eq_getElem?, dg_length]
  simp only [_double_gamma_hrf]
  rw [foldl_set_getElem?_ge _ _ _ _ (by simp)]
  simp [List.getElem?_replicate]
  omega

/-! ### Lemmas about slicing, convolution, maxima and the column loop -/

theorem everyNth_nil {α : Type} (s : ℕ) : everyNth (α := α) s [] = [] := by
  rw [everyNth]

theorem everyNth_cons {α : Type} (s : ℕ) (a : α) (t : List α) :
    everyNth s (a :: t) = a :: everyNth s (t.drop (s - 1)) := by
  rw [everyNth]

theorem everyNth_length {α : Type} (s : ℕ) (hs : 1 ≤ s) :
    ∀ l : List α, (everyNth s l).length = (l.length + s - 1) / s
  | [] => by
    rw [everyNth_nil]
    simp [Nat.div_eq_of_lt (show s - 1 < s by omega)]
  | a :: t => by
    rw [everyNth_cons]
    simp only [List.length_cons, everyNth_length s hs (t.drop (s - 1)), List.length_drop]
    rcases Nat.le_total (s - 1) t.length with hle | hlt
    · have h1 : t.length - (s - 1) + s - 1 = t.length := by omega
      have h2 : t.length + 1 + s - 1 = t.length + s := by omega
      rw [h1, h2, Nat.add_div_right _ (by omega)]
    · have h1 : t.length - (s - 1) + s - 1 = s - 1 := by omega
      rw [h1, Nat.div_eq_of_lt (by omega),
        Nat.div_eq_of_lt_le (by omega) (show t.length + 1 + s - 1 < (1 + 1) * s by omega)]
termination_by l => l.length
decreasing_by simp; omega

theorem everyNth_getElem? {α : Type} (s : ℕ) (hs : 1 ≤ s) :
    ∀ (l : List α) (k : ℕ), (everyNth s l)[k]? = l[k * s]?
  | [], k => by rw [everyNth_nil]; simp
  | a :: t, 0 => by rw [everyNth_cons]; simp
  | a :: t, k + 1 => by
    rw [everyNth_cons]
    simp only [List.getElem?_cons_succ]
    rw [everyNth_getElem? s hs (t.drop (s - 1)) k, List.getElem?_drop]
    have h : (k + 1) * s = (s - 1 + k * s) + 1 := by
      have : (k + 1) * s = k * s + s := by ring
      omega
    rw [h, List.getElem?_cons_succ]
termination_by l => l.length
decreasing_by simp; omega

theorem everyNth_mem {α : Type} (s : ℕ) :
    ∀ (l : List α) (x : α), x ∈ everyNth s l → x ∈ l
  | [], x => by rw [everyNth_nil]; simp
  | a :: t, x => by
    rw [everyNth_cons]
    intro hx
    rcases List.mem_cons.mp hx with h | h
    · exact h ▸ List.mem_cons_self a t
    · exact List.mem_cons_of_mem a
        (List.mem_of_mem_drop (everyNth_mem s (t.drop (s - 1)) x h))
termination_by l => l.length
decreasing_by simp; omega

theorem everyNth_map {α : Type} (s : ℕ) (f : α → α) :
    ∀ l : List α, everyNth s (l.map f) = (everyNth s l).map f
  | [] => by rw [everyNth_nil]; simp [everyNth_nil]
  | a :: t => by
    simp only [List.map_cons]
    rw [everyNth_cons, everyNth_cons, ← List.map_drop, everyNth_map s f (t.drop (s - 1))]
    simp
termination_by l => l.length
decreasing_by simp; omega

theorem npConvolve_length {α : Type} [LinearOrderedField α] (a v : List α) :
    (npConvolve a v).length = a.length + v.length - 1 := by
  simp [npConvolve]

theorem getD_replicate_zero {α : Type} [LinearOrderedField α] (n k : ℕ) :
    (List.replicate n (0 : α)).getD k 0 = 0 := by
  rw [List.getD_eq_getElem?_getD, List.getElem?_replicate]
  split <;> rfl

theorem npConvolve_replicate_zero {α : Type} [LinearOrderedField α] (n : ℕ) (v : List α) :
    npConvolve (List.replicate n (0 : α)) v = List.replicate (n + v.length - 1) 0 := by
  rw [List.eq_replicate_iff]
  constructor
  · simp [npConvolve]
  · intro b hb
    rcases List.mem_map.mp hb with ⟨m, -, rfl⟩
    apply List.sum_eq_zero
    intro y hy
    rcases List.mem_map.mp hy with ⟨k, -, rfl⟩
    rw [getD_replicate_zero]
    split <;> simp

theorem getD_map_mul_zero {α : Type} [LinearOrderedField α] (c : α) (a : List α) (k : ℕ) :
    (a.map (fun x => c * x)).getD k 0 = c * a.getD k 0 := by
  rw [List.getD_eq_getElem?_getD, List.getD_eq_getElem?_getD, List.getElem?_map]
  cases a[k]? <;> simp

theorem npConvolve_map_mul {α : Type} [LinearOrderedField α] (c : α) (a v : List α) :
    npConvolve (a.map (fun x => c * x)) v = (npConvolve a v).map (fun x => c * x) := by
  simp only [npConvolve, List.length_map, List.map_map]
  apply List.map_congr_left
  intro n _
  simp only [Function.comp_apply]
  rw [← List.sum_map_mul_left]
  congr 1
  apply List.map_congr_left
  intro k _
  rw [getD_map_mul_zero]
  split <;> ring

theorem listMax_foldl_map {α : Type} [LinearOrderedField α] (f : α → α)
    (hf : ∀ x y, f (max x y) = max (f x) (f y)) :
    ∀ (t : List α) (a : α), (t.map f).foldl max (f a) = f (t.foldl max a)
  | [], a => rfl
  | b :: t, a => by
    simp only [List.map_cons, List.foldl_cons]
    rw [← hf, listMax_foldl_map f hf t (max a b)]

theorem listMax_map_div {α : Type} [LinearOrderedField α] (v : List α) (m : α)
    (hm : 0 < m) : listMax (v.map (fun x => x / m)) = listMax v / m := by
  cases v with
  | nil => simp [listMax]
  | cons a t =>
    simp only [List.map_cons, listMax]
    refine listMax_foldl_map (fun x => x / m) ?_ t a
    intro x y
    show max x y / m = max (x / m) (y / m)
    rcases le_total x y with h | h
    · rw [max_eq_right h, max_eq_right (by gcongr)]
    · rw [max_eq_left h, max_eq_left (by gcongr)]

theorem listMax_replicate_zero {α : Type} [LinearOrderedField α] (d : ℕ) :
    listMax (List.replicate d (0 : α)) = 0 := by
  cases d with
  | zero => rfl
  | succ k =>
    simp only [List.replicate_succ, listMax]
    induction k with
    | zero => rfl
    | succ k ih => simpa [List.replicate_succ, max_self] using ih

theorem mapExcept_ok_of {α : Type} (f : ℕ → Except PyErr (List (PyVal α)))
    (g : ℕ → List (PyVal α)) :
    ∀ l : List ℕ, (∀ c ∈ l, f c = Except.ok (g c)) → mapExcept f l = Except.ok (l.map g)
  | [], _ => rfl
  | c :: t, h => by
    simp only [mapExcept, h c (List.mem_cons_self c t),
      mapExcept_ok_of f g t (fun x hx => h x (List.mem_cons_of_mem c hx)), List.map_cons]

theorem mapExcept_ok_forall {α : Type} (f : ℕ → Except PyErr (List (PyVal α))) :
    ∀ (l : List ℕ) (ys : List (List (PyVal α))), mapExcept f l = Except.ok ys →
      ∀ c ∈ l, ∃ v, f c = Except.ok v
  | [], _, _ => by simp
  | c :: t, ys, h => by
    intro x hx
    rcases List.mem_cons.mp hx with rfl | hmem
    · cases hfc : f x with
      | error e => rw [mapExcept, hfc] at h; cases h
      | ok v => exact ⟨v, rfl⟩
    · cases hfc : f c with
      | error e => rw [mapExcept, hfc] at h; cases h
      | ok v =>
        rw [mapExcept, hfc] at h
        cases hrest : mapExcept f t with
        | error e => rw [hrest] at h; cases h
        | ok vs => exact mapExcept_ok_forall f t vs hrest x hmem

/-! ### The per-column pipeline -/

theorem colVox_length {α : Type} [LinearOrderedField α] (col hrf : List α)
    (duration stride : ℕ) (hs : 1 ≤ stride)
    (hds : duration * stride ≤ (npConvolve col hrf).length) :
    (colVox col hrf duration stride).length = duration := by
  unfold colVox pySliceStep
  rw [everyNth_length stride hs, List.length_drop, List.length_take,
    Nat.min_eq_left hds]
  have hmul : (duration + 1) * stride = duration * stride + stride := by ring
  apply Nat.div_eq_of_lt_le
  · omega
  · omega

theorem colVox_getD {α : Type} [LinearOrderedField α] (col hrf : List α)
    (duration stride k : ℕ) (hs : 1 ≤ stride) :
    (colVox col hrf duration stride).getD k 0 =
      ((npConvolve col hrf).take (duration * stride)).getD (k * stride + stride / 2) 0 := by
  unfold colVox pySliceStep
  rw [List.getD_eq_getElem?_getD, List.getD_eq_getElem?_getD,
    everyNth_getElem? stride hs, List.getElem?_drop, Nat.add_comm]

theorem colVox_map_mul {α : Type} [LinearOrderedField α] (c : α) (col hrf : List α)
    (duration stride : ℕ) :
    colVox (col.map (fun x => c * x)) hrf duration stride =
      (colVox col hrf duration stride).map (fun x => c * x) := by
  unfold colVox pySliceStep
  rw [npConvolve_map_mul, ← List.map_take, ← List.map_drop, everyNth_map]

theorem colVox_replicate_zero {α : Type} [LinearOrderedField α] (n : ℕ) (hrf : List α)
    (duration stride : ℕ) (hs : 1 ≤ stride)
    (hds : duration * stride ≤ n + hrf.length - 1) :
    colVox (List.replicate n (0 : α)) hrf duration stride = List.replicate duration 0 := by
  rw [List.eq_replicate_iff]
  constructor
  · rw [colVox_length _ _ _ _ hs (by rw [npConvolve_length]; simpa using hds)]
  · intro b hb
    unfold colVox pySliceStep at hb
    have hmem := List.mem_of_mem_take (List.mem_of_mem_drop (everyNth_mem _ _ _ hb))
    rw [npConvolve_replicate_zero] at hmem
    exact List.eq_of_mem_replicate hmem

theorem stimColumn_length {α : Type} (s : Stim α) (c : ℕ) :
    (stimColumn s c).length = s.nrows := by
  simp [stimColumn]

theorem stimColumn_replicate_zero {α : Type} [LinearOrderedField α] (s : Stim α) (j : ℕ)
    (hzero : ∀ r < s.nrows, s.entry r j = 0) :
    stimColumn s j = List.replicate s.nrows (0 : α) := by
  rw [List.eq_replicate_iff]
  constructor
  · exact stimColumn_length s j
  · intro b hb
    rcases List.mem_map.mp hb with ⟨r, hr, rfl⟩
    exact hzero r (List.mem_range.mp hr)

/-! ### Success and failure characterizations of `convolve_hrf` -/

theorem convolve_hrf_ok_noscale {α : Type} [LinearOrderedField α] (apow : α → α → α)
    (aexp : α → α) (stim : Stim α) (trd tres : ℚ) (ht : HrfType α) (h : List α)
    (hsz : pyInt (tres * trd) ≠ 0) (hc : stim.ncols ≠ 0)
    (hh : hrfOf apow aexp ht tres = some h) (hr : stim.nrows ≠ 0) (hne : h ≠ []) :
    convolve_hrf apow aexp stim trd ht false tres =
      Except.ok ((List.range stim.ncols).map (fun c =>
        (colVox (stimColumn stim c) h (stim.nrows / (pyInt (tres * trd)).toNat)
          (pyInt (tres * trd)).toNat).map PyVal.val)) := by
  unfold convolve_hrf
  rw [if_neg hsz, if_neg hc, hh]
  apply mapExcept_ok_of
  intro c _
  unfold convolveColumn
  rw [if_neg]
  · simp
  · rw [stimColumn_length]
    push_neg
    exact ⟨hr, by simpa [List.length_eq_zero] using hne⟩

theorem convolve_hrf_ok_scale {α : Type} [LinearOrderedField α] (apow : α → α → α)
    (aexp : α → α) (stim : Stim α) (trd tres : ℚ) (ht : HrfType α) (h : List α)
    (hsz : 1 ≤ pyInt (tres * trd)) (hc : stim.ncols ≠ 0)
    (hh : hrfOf apow aexp ht tres = some h)
    (hdur : (pyInt (tres * trd)).toNat ≤ stim.nrows) (hne : h ≠ []) :
    convolve_hrf apow aexp stim trd ht true tres =
      Except.ok ((List.range stim.ncols).map (fun c =>
        scaleVox (colVox (stimColumn stim c) h (stim.nrows / (pyInt (tres * trd)).toNat)
          (pyInt (tres * trd)).toNat))) := by
  have hs1 : 1 ≤ (pyInt (tres * trd)).toNat := by omega
  have hr : stim.nrows ≠ 0 := by omega
  unfold convolve_hrf
  rw [if_neg (by omega), if_neg hc, hh]
  apply mapExcept_ok_of
  intro c _
  unfold convolveColumn
  rw [if_neg]
  · have hvox : (colVox (stimColumn stim c) h (stim.nrows / (pyInt (tres * trd)).toNat)
        (pyInt (tres * trd)).toNat).length =
        stim.nrows / (pyInt (tres * trd)).toNat := by
      apply colVox_length _ _ _ _ hs1
      rw [npConvolve_length, stimColumn_length]
      have h1 : stim.nrows / (pyInt (tres * trd)).toNat * (pyInt (tres * trd)).toNat ≤
          stim.nrows := Nat.div_mul_le_self _ _
      have h2 : 1 ≤ h.length := by
        rcases h with - | -
        · exact absurd rfl hne
        · simp
      omega
    have hvne : ¬colVox (stimColumn stim c) h (stim.nrows / (pyInt (tres * trd)).toNat)
        (pyInt (tres * trd)).toNat = [] := by
      intro hcon
      rw [hcon] at hvox
      have : 1 ≤ stim.nrows / (pyInt (tres * trd)).toNat :=
        (Nat.one_le_div_iff (by omega)).mpr hdur
      simp at hvox
      omega
    simp [hvne]
  · rw [stimColumn_length]
    push_neg
    exact ⟨hr, by simpa [List.length_eq_zero] using hne⟩

theorem convolve_hrf_ok_inv {α : Type} [LinearOrderedField α] (apow : α → α → α)
    (aexp : α → α) (stim : Stim α) (trd tres : ℚ) (ht : HrfType α) (sc : Bool)
    (cols : List (List (PyVal α)))
    (hok : convolve_hrf apow aexp stim trd ht sc tres = Except.ok cols) :
    pyInt (tres * trd) ≠ 0 ∧ stim.ncols ≠ 0 ∧
      ∃ h, hrfOf apow aexp ht tres = some h ∧ stim.nrows ≠ 0 ∧ h ≠ [] := by
  unfold convolve_hrf at hok
  by_cases hsz : pyInt (tres * trd) = 0
  · rw [if_pos hsz] at hok; cases hok
  rw [if_neg hsz] at hok
  by_cases hc : stim.ncols = 0
  · rw [if_pos hc] at hok; cases hok
  rw [if_neg hc] at hok
  refine ⟨hsz, hc, ?_⟩
  cases hh : hrfOf apow aexp ht tres with
  | none => rw [hh] at hok; cases hok
  | some h =>
    rw [hh] at hok
    refine ⟨h, rfl, ?_⟩
    have hmem : 0 ∈ List.range stim.ncols := List.mem_range.mpr (by omega)
    rcases mapExcept_ok_forall _ _ _ hok 0 hmem with ⟨v, hv⟩
    unfold convolveColumn at hv
    by_cases hguard : (stimColumn stim 0).length = 0 ∨ h.length = 0
    · rw [if_pos hguard] at hv; cases hv
    · push_neg at hguard
      rw [stimColumn_length] at hguard
      exact ⟨hguard.1, by simpa [List.length_eq_zero] using hguard.2⟩

/-! ### Claim theorems -/

/-- Claim C6: for every stimfunction, tr_duration, scale_function and
temporal_resolution, calling `convolve_hrf` with `hrf_type` equal to the exact
sequence the HRF synthesizer would produce for that temporal_resolution (with
default shape parameters) returns the same output as `hrf_type =
'double_gamma'`. -/
theorem convolve_hrf_explicit_matches_double_gamma (stim : Stim ℝ) (trd tres : ℚ)
    (sc : Bool) :
    convolve_hrfR stim trd
      (HrfType.explicit_list
        (_double_gamma_hrf rpowFn Real.exp 6 12 (9/10) (9/10) 1 (7/200) tres)) sc tres =
      convolve_hrfR stim trd HrfType.double_gamma sc tres := rfl

/-- Claim C2: for every sample index `i` with `i + 1 < N` (`N` the HRF
length), `hrf[i]` equals the double-gamma formula at `t = i /
temporal_resolution`, where the undershoot exponent divides only
`undershoot_peak` by `undershoot_dispersion`, not the whole difference. -/
theorem double_gamma_hrf_value_formula (response_delay undershoot_delay
    response_dispersion undershoot_dispersion response_scale undershoot_scale : ℝ)
    (temporal_resolution : ℚ) (i : ℕ)
    (hi : i + 1 < (_double_gamma_hrf rpowFn Real.exp response_delay undershoot_delay
      response_dispersion undershoot_dispersion response_scale undershoot_scale
      temporal_resolution).length) :
    (_double_gamma_hrf rpowFn Real.exp response_delay undershoot_delay
        response_dispersion undershoot_dispersion response_scale undershoot_scale
        temporal_resolution).getD i 0 =
      response_scale *
            (((i : ℝ) / ((temporal_resolution : ℚ) : ℝ)) /
                (response_delay * response_dispersion)) ^ response_delay *
            Real.exp (-(((i : ℝ) / ((temporal_resolution : ℚ) : ℝ)) -
                response_delay * response_dispersion) / response_dispersion) -
        undershoot_scale *
            (((i : ℝ) / ((temporal_resolution : ℚ) : ℝ)) /
                (undershoot_delay * undershoot_dispersion)) ^ undershoot_delay *
            Real.exp (-(((i : ℝ) / ((temporal_resolution : ℚ) : ℝ)) -
                undershoot_delay * undershoot_dispersion / undershoot_dispersion)) := by
  rw [dg_length] at hi
  rw [dg_getD rpowFn Real.exp _ _ _ _ _ _ _ i hi]
  rfl

theorem double_gamma_hrf_value_formula_witness :
    0 + 1 < (_double_gamma_hrf rpowFn Real.exp 6 12 (9/10) (9/10) 1 (7/200)
      (1/15)).length ∧
    (_double_gamma_hrf rpowFn Real.exp 6 12 (9/10) (9/10) 1 (7/200) (1/15)).getD 0 0 =
      1 * (((0 : ℕ) : ℝ) / (((1/15 : ℚ) : ℚ) : ℝ) / (6 * (9/10))) ^ (6 : ℝ) *
          Real.exp (-((((0 : ℕ) : ℝ) / (((1/15 : ℚ) : ℚ) : ℝ)) - 6 * (9/10)) / (9/10)) -
        7/200 * (((0 : ℕ) : ℝ) / (((1/15 : ℚ) : ℚ) : ℝ) / (12 * (9/10))) ^ (12 : ℝ) *
          Real.exp (-((((0 : ℕ) : ℝ) / (((1/15 : ℚ) : ℚ) : ℝ)) - 12 * (9/10) / (9/10))) := by
  have hlen : 0 + 1 < (_double_gamma_hrf rpowFn Real.exp 6 12 (9/10) (9/10) 1 (7/200)
      (1/15 : ℚ)).length := by
    rw [dg_length]
    norm_num [pyInt]
  exact ⟨hlen, double_gamma_hrf_value_formula 6 12 (9/10) (9/10) 1 (7/200) (1/15) 0 hlen⟩

/-- Claim C3 (amended): for every positive temporal_resolution the synthesizer
returns exactly `⌊30 * temporal_resolution⌋` values, and whenever that length
is at least 1 the final value equals 0 (the last index is never written). -/
theorem double_gamma_hrf_length_and_last (rd ud rdp udp rs us : ℝ) (tres : ℚ)
    (hpos : 0 < tres) :
    (_double_gamma_hrf rpowFn Real.exp rd ud rdp udp rs us tres).length =
        (Int.floor ((30 : ℚ) * tres)).toNat ∧
      (1 ≤ (Int.floor ((30 : ℚ) * tres)).toNat →
        (_double_gamma_hrf rpowFn Real.exp rd ud rdp udp rs us tres).getLast? =
          some 0) := by
  have hfl : pyInt (30 * tres) = Int.floor ((30 : ℚ) * tres) :=
    pyInt_of_nonneg _ (by positivity)
  constructor
  · rw [dg_length, hfl]
  · intro hge
    apply dg_getLast?_of_pos
    rw [hfl]
    exact hge

theorem double_gamma_hrf_length_and_last_witness :
    ((0 : ℚ) < 1/30) ∧
    (_double_gamma_hrf rpowFn Real.exp 6 12 (9/10) (9/10) 1 (7/200) (1/30)).length =
        (Int.floor ((30 : ℚ) * (1/30))).toNat ∧
      (1 ≤ (Int.floor ((30 : ℚ) * (1/30))).toNat →
        (_double_gamma_hrf rpowFn Real.exp 6 12 (9/10) (9/10) 1 (7/200)
          (1/30)).getLast? = some 0) := by
  refine ⟨by norm_num, ?_⟩
  exact double_gamma_hrf_length_and_last 6 12 (9/10) (9/10) 1 (7/200) (1/30) (by norm_num)

/-- Counterexample to claim C3 as stated: at the positive
`temporal_resolution = 1/100` the synthesizer returns the empty sequence, so
there is no final value equal to 0. -/
theorem double_gamma_hrf_last_cex :
    (0 : ℚ) < 1/100 ∧
    (_double_gamma_hrf rpowFn Real.exp 6 12 (9/10) (9/10) 1 (7/200) (1/100) :
        List ℝ) = [] ∧
    (_double_gamma_hrf rpowFn Real.exp 6 12 (9/10) (9/10) 1 (7/200) (1/100) :
        List ℝ).getLast? ≠ some 0 := by
  have hlen : (_double_gamma_hrf rpowFn Real.exp 6 12 (9/10) (9/10) 1 (7/200) (1/100) :
      List ℝ).length = 0 := by
    rw [dg_length]
    norm_num [pyInt]
  have hnil := List.eq_nil_of_length_eq_zero hlen
  refine ⟨by norm_num, hnil, ?_⟩
  rw [hnil]
  simp

/-- Claim C9 (amended): whenever `stride ≠ 0` (so line 123 does not raise
first), calling `convolve_hrf` with an `hrf_type` that is neither
`'double_gamma'` nor a list fails with an unbound-variable `NameError` before
any convolution: on `hrf` if there is at least one column, and on
`signal_function` (the loop never ran) otherwise. -/
theorem convolve_hrf_other_name_error (stim : Stim ℝ) (trd tres : ℚ) (sc : Bool)
    (hsz : pyInt (tres * trd) ≠ 0) :
    convolve_hrfR stim trd HrfType.other sc tres =
      Except.error (PyErr.nameError
        (if stim.ncols = 0 then "signal_function" else "hrf")) := by
  unfold convolve_hrfR convolve_hrf
  rw [if_neg hsz]
  by_cases hc : stim.ncols = 0
  · rw [if_pos hc, if_pos hc]
  · rw [if_neg hc, if_neg hc]
    simp [hrfOf]

theorem convolve_hrf_other_name_error_witness :
    convolve_hrfR ⟨1, 1, fun _ _ => 0⟩ 1 HrfType.other true 1 =
      Except.error (PyErr.nameError
        (if (Stim.mk (α := ℝ) 1 1 (fun _ _ => 0)).ncols = 0 then "signal_function"
          else "hrf")) :=
  convolve_hrf_other_name_error ⟨1, 1, fun _ _ => 0⟩ 1 1 true (by norm_num [pyInt])

/-- Counterexample to claim C9 as stated: with `temporal_resolution = 1/2` and
`tr_duration = 1` the stride is 0 and the call fails with `ZeroDivisionError`
at line 123, which is not an unbound-variable error. -/
theorem convolve_hrf_other_zero_stride_cex :
    convolve_hrfR ⟨1, 1, fun _ _ => 1⟩ 1 HrfType.other true (1/2) =
        Except.error PyErr.zeroDivisionError ∧
      ∀ v : String, PyErr.zeroDivisionError ≠ PyErr.nameError v := by
  constructor
  · unfold convolve_hrfR convolve_hrf
    rw [if_pos (by norm_num [pyInt])]
  · intro v hcon
    cases hcon

theorem getD_map_range {β : Type} (f : ℕ → β) (n c : ℕ) (d : β) (hc : c < n) :
    ((List.range n).map f).getD c d = f c := by
  rw [List.getD_eq_getElem?_getD, List.getElem?_map, List.getElem?_range hc]
  rfl

theorem getD_map_val {α : Type} [LinearOrderedField α] (l : List α) (k : ℕ) :
    (l.map PyVal.val).getD k (PyVal.val 0) = PyVal.val (l.getD k 0) := by
  rw [List.getD_eq_getElem?_getD, List.getD_eq_getElem?_getD, List.getElem?_map]
  cases l[k]? <;> rfl

theorem colVox_zero_duration {α : Type} [LinearOrderedField α] (col hrf : List α)
    (stride : ℕ) : colVox col hrf 0 stride = [] := by
  simp [colVox, pySliceStep, everyNth_nil]

theorem convolve_hrf_error_empty_convolve {α : Type} [LinearOrderedField α]
    (apow : α → α → α) (aexp : α → α) (stim : Stim α) (trd tres : ℚ) (ht : HrfType α)
    (sc : Bool) (h : List α) (hsz : pyInt (tres * trd) ≠ 0) (hc : stim.ncols ≠ 0)
    (hh : hrfOf apow aexp ht tres = some h) (hg : stim.nrows = 0 ∨ h = []) :
    convolve_hrf apow aexp stim trd ht sc tres =
      Except.error PyErr.valueErrorEmptyConvolve := by
  unfold convolve_hrf
  rw [if_neg hsz, if_neg hc, hh]
  obtain ⟨m, hm⟩ : ∃ m, stim.ncols = m + 1 := ⟨stim.ncols - 1, by omega⟩
  rw [hm, List.range_succ_eq_map]
  have hguard : stimColumn stim 0 = [] ∨ h = [] := by
    rcases hg with h0 | h0
    · exact Or.inl (List.eq_nil_of_length_eq_zero (by rw [stimColumn_length]; exact h0))
    · exact Or.inr h0
  simp [mapExcept, convolveColumn, hguard]

theorem convolve_hrf_error_empty_max {α : Type} [LinearOrderedField α]
    (apow : α → α → α) (aexp : α → α) (stim : Stim α) (trd tres : ℚ) (ht : HrfType α)
    (h : List α) (hlt : stim.nrows < (pyInt (tres * trd)).toNat) (hr : stim.nrows ≠ 0)
    (hc : stim.ncols ≠ 0) (hh : hrfOf apow aexp ht tres = some h) (hne : h ≠ []) :
    convolve_hrf apow aexp stim trd ht true tres =
      Except.error PyErr.valueErrorEmptyMax := by
  have hsz : pyInt (tres * trd) ≠ 0 := by omega
  unfold convolve_hrf
  rw [if_neg hsz, if_neg hc, hh]
  obtain ⟨m, hm⟩ : ∃ m, stim.ncols = m + 1 := ⟨stim.ncols - 1, by omega⟩
  rw [hm, List.range_succ_eq_map]
  have hcol : stimColumn stim 0 ≠ [] := by
    intro hcon
    have hlen := stimColumn_length stim 0
    rw [hcon] at hlen
    simp at hlen
    omega
  have hguard : ¬(stimColumn stim 0 = [] ∨ h = []) := by
    push_neg
    exact ⟨hcol, hne⟩
  have hdur : stim.nrows / (pyInt (tres * trd)).toNat = 0 := Nat.div_eq_of_lt hlt
  simp [mapExcept, convolveColumn, hguard, hdur, colVox_zero_duration]

/-- Claim C1 (amended): for positive `tr_duration` and `temporal_resolution`
with `stride ≥ 1`, `duration ≥ 1` and `scale_function = false` — and provided
the stimfunction has at least one column and the HRF sequence in use is
nonempty — `convolve_hrf` returns a matrix of `duration` rows by `ncols`
columns whose entry at row `k`, column `c` is the full linear convolution of
column `c` with the HRF, truncated to its first `duration * stride` samples,
at index `k * stride + stride / 2`. -/
theorem convolve_hrf_noscale_shape_values (stim : Stim ℝ) (trd tres : ℚ)
    (ht : HrfType ℝ) (h : List ℝ) (htrd : 0 < trd) (htres : 0 < tres)
    (hsz : 1 ≤ pyInt (tres * trd))
    (hdur : 1 ≤ stim.nrows / (pyInt (tres * trd)).toNat) (hc : 1 ≤ stim.ncols)
    (hh : hrfOf rpowFn Real.exp ht tres = some h) (hne : h ≠ []) :
    ∃ cols, convolve_hrfR stim trd ht false tres = Except.ok cols ∧
      cols.length = stim.ncols ∧
      (∀ c < stim.ncols,
        (cols.getD c []).length = stim.nrows / (pyInt (tres * trd)).toNat) ∧
      (∀ c < stim.ncols, ∀ k < stim.nrows / (pyInt (tres * trd)).toNat,
        (cols.getD c []).getD k (PyVal.val 0) =
          PyVal.val (((npConvolve (stimColumn stim c) h).take
              (stim.nrows / (pyInt (tres * trd)).toNat * (pyInt (tres * trd)).toNat)).getD
            (k * (pyInt (tres * trd)).toNat + (pyInt (tres * trd)).toNat / 2) 0)) := by
  have hs1 : 1 ≤ (pyInt (tres * trd)).toNat := by omega
  have hr : stim.nrows ≠ 0 := by
    have hle := (Nat.one_le_div_iff (show 0 < (pyInt (tres * trd)).toNat by omega)).mp hdur
    omega
  refine ⟨_, convolve_hrf_ok_noscale rpowFn Real.exp stim trd tres ht h (by omega)
    (by omega) hh hr hne, by simp, ?_, ?_⟩
  · intro c hclt
    rw [getD_map_range _ _ _ _ hclt, List.length_map]
    apply colVox_length _ _ _ _ hs1
    rw [npConvolve_length, stimColumn_length]
    have h1 : stim.nrows / (pyInt (tres * trd)).toNat * (pyInt (tres * trd)).toNat ≤
        stim.nrows := Nat.div_mul_le_self _ _
    have h2 : 1 ≤ h.length := by
      rcases h with - | -
      · exact absurd rfl hne
      · simp
    omega
  · intro c hclt k hk
    rw [getD_map_range _ _ _ _ hclt, getD_map_val, colVox_getD _ _ _ _ _ hs1]

theorem convolve_hrf_noscale_shape_values_witness :
    ∃ cols, convolve_hrfR ⟨2, 1, fun _ _ => 1⟩ 1 (HrfType.explicit_list [1]) false 1 =
        Except.ok cols ∧
      cols.length = 1 ∧
      (∀ c < 1, (cols.getD c []).length = 2 / (pyInt (1 * 1)).toNat) ∧
      (∀ c < 1, ∀ k < 2 / (pyInt (1 * 1)).toNat,
        (cols.getD c []).getD k (PyVal.val 0) =
          PyVal.val (((npConvolve (stimColumn ⟨2, 1, fun _ _ => 1⟩ c) [1]).take
              (2 / (pyInt (1 * 1)).toNat * (pyInt (1 * 1)).toNat)).getD
            (k * (pyInt (1 * 1)).toNat + (pyInt (1 * 1)).toNat / 2) 0)) :=
  convolve_hrf_noscale_shape_values ⟨2, 1, fun _ _ => 1⟩ 1 1 (HrfType.explicit_list [1])
    [1] (by norm_num) (by norm_num) (by norm_num [pyInt]) (by norm_num [pyInt])
    (by norm_num) rfl (by simp)

/-- Counterexample to claim C1 as stated: all of C1's stated side conditions
hold (positive parameters, stride 1, duration 1, `scale_function = false`),
but at `temporal_resolution = 1/31` the default double-gamma HRF is the empty
sequence, so `np.convolve` raises a `ValueError` and no matrix is returned. -/
theorem convolve_hrf_noscale_cex :
    (0 : ℚ) < 31 ∧ (0 : ℚ) < 1/31 ∧ 1 ≤ pyInt ((1/31) * 31) ∧
      1 ≤ 1 / (pyInt ((1/31) * 31)).toNat ∧
      convolve_hrfR ⟨1, 1, fun _ _ => 1⟩ 31 HrfType.double_gamma false (1/31) =
        Except.error PyErr.valueErrorEmptyConvolve := by
  have hdg : (_double_gamma_hrf rpowFn Real.exp 6 12 (9/10) (9/10) 1 (7/200) (1/31) :
      List ℝ) = [] := by
    apply List.eq_nil_of_length_eq_zero
    rw [dg_length]
    norm_num [pyInt]
  refine ⟨by norm_num, by norm_num, by norm_num [pyInt], by norm_num [pyInt], ?_⟩
  exact convolve_hrf_error_empty_convolve rpowFn Real.exp ⟨1, 1, fun _ _ => 1⟩ 31 (1/31)
    HrfType.double_gamma false _ (by norm_num [pyInt]) (by norm_num)
    (by simp [hrfOf]) (Or.inr hdg)

/-- Claim C10: for every stimfunction with fewer rows than the stride,
`convolve_hrf` with `scale_function = true` fails with an exception instead of
returning a zero-row matrix; under the normal conditions (nonempty
stimfunction, at least one column, an assigned nonempty HRF) the exception is
specifically `np.max` of an empty vector. -/
theorem convolve_hrf_short_rows_scale_error (stim : Stim ℝ) (trd tres : ℚ)
    (ht : HrfType ℝ) (hlt : stim.nrows < (pyInt (tres * trd)).toNat) :
    (∃ e, convolve_hrfR stim trd ht true tres = Except.error e) ∧
      (1 ≤ stim.nrows → 1 ≤ stim.ncols →
        ∀ h, hrfOf rpowFn Real.exp ht tres = some h → h ≠ [] →
          convolve_hrfR stim trd ht true tres =
            Except.error PyErr.valueErrorEmptyMax) := by
  have hsz : pyInt (tres * trd) ≠ 0 := by omega
  constructor
  · by_cases hc : stim.ncols = 0
    · exact ⟨_, by unfold convolve_hrfR convolve_hrf; rw [if_neg hsz, if_pos hc]⟩
    · cases hh : hrfOf rpowFn Real.exp ht tres with
      | none =>
        refine ⟨PyErr.nameError "hrf", ?_⟩
        unfold convolve_hrfR convolve_hrf
        rw [if_neg hsz, if_neg hc, hh]
      | some h =>
        by_cases hg : stim.nrows = 0 ∨ h = []
        · exact ⟨_, convolve_hrf_error_empty_convolve rpowFn Real.exp stim trd tres ht
            true h hsz hc hh hg⟩
        · push_neg at hg
          exact ⟨_, convolve_hrf_error_empty_max rpowFn Real.exp stim trd tres ht h hlt
            hg.1 hc hh hg.2⟩
  · intro hr hc h hh hne
    exact convolve_hrf_error_empty_max rpowFn Real.exp stim trd tres ht h hlt
      (by omega) (by omega) hh hne

theorem convolve_hrf_short_rows_scale_error_witness :
    (∃ e, convolve_hrfR ⟨1, 1, fun _ _ => 1⟩ 2 (HrfType.explicit_list [1]) true 1 =
        Except.error e) ∧
      (1 ≤ (1 : ℕ) → 1 ≤ (1 : ℕ) →
        ∀ h, hrfOf rpowFn Real.exp (HrfType.explicit_list [1]) 1 = some h → h ≠ [] →
          convolve_hrfR ⟨1, 1, fun _ _ => 1⟩ 2 (HrfType.explicit_list [1]) true 1 =
            Except.error PyErr.valueErrorEmptyMax) :=
  convolve_hrf_short_rows_scale_error ⟨1, 1, fun _ _ => 1⟩ 2 1
    (HrfType.explicit_list [1]) (by norm_num [pyInt])

theorem scaleVox_length {α : Type} [LinearOrderedField α] (v : List α) :
    (scaleVox v).length = v.length := by
  simp [scaleVox]

theorem dg_default_hundred_ne_nil :
    (_double_gamma_hrf rpowFn Real.exp 6 12 (9/10) (9/10) 1 (7/200) (100 : ℚ) :
      List ℝ) ≠ [] := by
  intro hcon
  have hlen := dg_length (α := ℝ) rpowFn Real.exp 6 12 (9/10) (9/10) 1 (7/200) 100
  rw [hcon] at hlen
  simp at hlen
  norm_num [pyInt] at hlen
  omega

/-- Claim C5 (amended): when the stimfunction has fewer rows than columns the
shape check fires its warning and the call proceeds unaffected; provided
`stride ≥ 1`, at least one whole TR fits and the HRF sequence is nonempty, it
returns a matrix sized from the literal row and column counts of the input. -/
theorem convolve_hrf_warns_and_continues (stim : Stim ℝ) (trd tres : ℚ)
    (ht : HrfType ℝ) (sc : Bool) (h : List ℝ) (hshape : stim.nrows < stim.ncols)
    (hsz : 1 ≤ pyInt (tres * trd)) (hdur : (pyInt (tres * trd)).toNat ≤ stim.nrows)
    (hh : hrfOf rpowFn Real.exp ht tres = some h) (hne : h ≠ []) :
    convolve_hrf_warns stim = true ∧
      ∃ cols, convolve_hrfR stim trd ht sc tres = Except.ok cols ∧
        cols.length = stim.ncols ∧
        ∀ c < stim.ncols,
          (cols.getD c []).length = stim.nrows / (pyInt (tres * trd)).toNat := by
  have hs1 : 1 ≤ (pyInt (tres * trd)).toNat := by omega
  have hc : stim.ncols ≠ 0 := by omega
  have hwarn : convolve_hrf_warns stim = true := by
    simp [convolve_hrf_warns, hshape]
  have hcolLen : ∀ c, (colVox (stimColumn stim c) h
      (stim.nrows / (pyInt (tres * trd)).toNat) (pyInt (tres * trd)).toNat).length =
      stim.nrows / (pyInt (tres * trd)).toNat := by
    intro c
    apply colVox_length _ _ _ _ hs1
    rw [npConvolve_length, stimColumn_length]
    have h1 : stim.nrows / (pyInt (tres * trd)).toNat * (pyInt (tres * trd)).toNat ≤
        stim.nrows := Nat.div_mul_le_self _ _
    have h2 : 1 ≤ h.length := by
      rcases h with - | -
      · exact absurd rfl hne
      · simp
    omega
  cases sc with
  | false =>
    refine ⟨hwarn, _, convolve_hrf_ok_noscale rpowFn Real.exp stim trd tres ht h
      (by omega) hc hh (by omega) hne, by simp, ?_⟩
    intro c hclt
    rw [getD_map_range _ _ _ _ hclt, List.length_map, hcolLen]
  | true =>
    refine ⟨hwarn, _, convolve_hrf_ok_scale rpowFn Real.exp stim trd tres ht h hsz hc
      hh hdur hne, by simp, ?_⟩
    intro c hclt
    rw [getD_map_range _ _ _ _ hclt, scaleVox_length, hcolLen]

theorem convolve_hrf_warns_and_continues_witness :
    convolve_hrf_warns (Stim.mk (α := ℝ) 1 2 (fun _ _ => 1)) = true ∧
      ∃ cols, convolve_hrfR ⟨1, 2, fun _ _ => 1⟩ 1 (HrfType.explicit_list [1]) true 1 =
          Except.ok cols ∧
        cols.length = 2 ∧
        ∀ c < 2, (cols.getD c []).length = 1 / (pyInt (1 * 1)).toNat :=
  convolve_hrf_warns_and_continues ⟨1, 2, fun _ _ => 1⟩ 1 1
    (HrfType.explicit_list [1]) true [1] (by norm_num) (by norm_num [pyInt])
    (by norm_num [pyInt]) rfl (by simp)

/-- Counterexample to claim C5 as stated: a 1-by-2 stimfunction (rows < cols)
with `tr_duration = 1`, `temporal_resolution = 100` and scaling on does fail —
no whole TR fits, so `np.max` is applied to an empty vector — rather than
returning a result with the literal row and column counts. -/
theorem convolve_hrf_warns_cex :
    (1 : ℕ) < 2 ∧
      convolve_hrfR ⟨1, 2, fun _ _ => 1⟩ 1 HrfType.double_gamma true 100 =
        Except.error PyErr.valueErrorEmptyMax := by
  refine ⟨by norm_num, ?_⟩
  exact convolve_hrf_error_empty_max rpowFn Real.exp ⟨1, 2, fun _ _ => 1⟩ 1 100
    HrfType.double_gamma _ (by norm_num [pyInt]) (by norm_num) (by norm_num)
    (by simp [hrfOf]) dg_default_hundred_ne_nil

/-- Claim C8 (amended): provided `stride ≥ 1`, at least one whole TR fits and
the HRF sequence is nonempty, an all-zero stimulus column with
`scale_function = true` raises no error: the call returns a matrix whose
column `j` consists entirely of `nan` (zeros divided by a zero maximum) while
every other column is the normally scaled downsampled convolution. -/
theorem convolve_hrf_zero_column_nan (stim : Stim ℝ) (trd tres : ℚ) (ht : HrfType ℝ)
    (h : List ℝ) (j : ℕ) (hsz : 1 ≤ pyInt (tres * trd))
    (hdur : (pyInt (tres * trd)).toNat ≤ stim.nrows)
    (hh : hrfOf rpowFn Real.exp ht tres = some h) (hne : h ≠ [])
    (hj : j < stim.ncols) (hzero : ∀ r < stim.nrows, stim.entry r j = 0) :
    ∃ cols, convolve_hrfR stim trd ht true tres = Except.ok cols ∧
      cols.getD j [] =
        List.replicate (stim.nrows / (pyInt (tres * trd)).toNat) PyVal.nan ∧
      ∀ c < stim.ncols, c ≠ j → cols.getD c [] =
        scaleVox (colVox (stimColumn stim c)
          h (stim.nrows / (pyInt (tres * trd)).toNat) (pyInt (tres * trd)).toNat) := by
  have hs1 : 1 ≤ (pyInt (tres * trd)).toNat := by omega
  have h2 : 1 ≤ h.length := by
    rcases h with - | -
    · exact absurd rfl hne
    · simp
  refine ⟨_, convolve_hrf_ok_scale rpowFn Real.exp stim trd tres ht h hsz (by omega)
    hh hdur hne, ?_, ?_⟩
  · rw [getD_map_range _ _ _ _ hj, stimColumn_replicate_zero stim j hzero,
      colVox_replicate_zero _ _ _ _ hs1 (by
        have h1 : stim.nrows / (pyInt (tres * trd)).toNat * (pyInt (tres * trd)).toNat ≤
            stim.nrows := Nat.div_mul_le_self _ _
        omega)]
    simp [scaleVox, listMax_replicate_zero, List.map_replicate, npDiv]
  · intro c hclt hcj
    rw [getD_map_range _ _ _ _ hclt]

theorem convolve_hrf_zero_column_nan_witness :
    ∃ cols, convolve_hrfR ⟨1, 2, fun _ c => if c = 0 then 0 else 1⟩ 1
        (HrfType.explicit_list [1]) true 1 = Except.ok cols ∧
      cols.getD 0 [] = List.replicate (1 / (pyInt (1 * 1)).toNat) PyVal.nan ∧
      ∀ c < 2, c ≠ 0 → cols.getD c [] =
        scaleVox (colVox (stimColumn ⟨1, 2, fun _ c => if c = 0 then 0 else 1⟩ c)
          [1] (1 / (pyInt (1 * 1)).toNat) (pyInt (1 * 1)).toNat) :=
  convolve_hrf_zero_column_nan ⟨1, 2, fun _ c => if c = 0 then 0 else 1⟩ 1 1
    (HrfType.explicit_list [1]) [1] 0 (by norm_num [pyInt]) (by norm_num [pyInt]) rfl
    (by simp) (by norm_num) (fun r _ => by norm_num)

/-- Counterexample to claim C8 as stated: a stimfunction consisting of one
all-zero column, with scaling on and `temporal_resolution = 100`, raises an
exception (`np.max` of an empty vector, no whole TR fits) instead of
returning a nan-filled column. -/
theorem convolve_hrf_zero_column_scale_cex :
    (∀ r < (1 : ℕ), (Stim.mk (α := ℝ) 1 1 (fun _ _ => 0)).entry r 0 = 0) ∧
      convolve_hrfR ⟨1, 1, fun _ _ => 0⟩ 1 HrfType.double_gamma true 100 =
        Except.error PyErr.valueErrorEmptyMax := by
  refine ⟨fun r _ => rfl, ?_⟩
  exact convolve_hrf_error_empty_max rpowFn Real.exp ⟨1, 1, fun _ _ => 0⟩ 1 100
    HrfType.double_gamma _ (by norm_num [pyInt]) (by norm_num) (by norm_num)
    (by simp [hrfOf]) dg_default_hundred_ne_nil

theorem listRange_one : List.range 1 = [0] := rfl

theorem listRange_two : List.range 2 = [0, 1] := rfl

theorem filterMap_eq_map_of {α β : Type} (g : α → Option β) (f : α → β)
    (hgf : ∀ x, g x = some (f x)) : ∀ l : List α, l.filterMap g = l.map f
  | [] => rfl
  | a :: t => by
    rw [List.filterMap_cons, hgf a, List.map_cons, filterMap_eq_map_of g f hgf t]

theorem pyVals_scaleVox {α : Type} [LinearOrderedField α] (v : List α)
    (hm : listMax v ≠ 0) :
    pyVals (scaleVox v) = v.map (fun x => x / listMax v) := by
  unfold pyVals scaleVox
  rw [List.filterMap_map]
  apply filterMap_eq_map_of
  intro x
  simp [Function.comp, npDiv, hm]

theorem everyNth_one {α : Type} : ∀ l : List α, everyNth 1 l = l
  | [] => everyNth_nil 1
  | a :: t => by rw [everyNth_cons, Nat.sub_self, List.drop_zero, everyNth_one t]

theorem npConvolve_single {α : Type} [LinearOrderedField α] (x y : α) :
    npConvolve [x] [y] = [x * y] := by
  norm_num [npConvolve, listRange_one]

theorem npConvolve_pair_single {α : Type} [LinearOrderedField α] (x y z : α) :
    npConvolve [x, y] [z] = [x * z, y * z] := by
  norm_num [npConvolve, List.range_succ, listRange_one]

theorem colVox_single {α : Type} [LinearOrderedField α] (x y : α) :
    colVox [x] [y] 1 1 = [x * y] := by
  rw [colVox, pySliceStep, npConvolve_single]
  norm_num [everyNth_one]

/-- Claim C4 (amended): with `scale_function = true`, for every column whose
pre-scaling downsampled vector has a strictly positive maximum (and provided
the call succeeds: `stride ≥ 1`, at least one whole TR, nonempty HRF), the
maximum value — not the maximum absolute value — of that output column
equals 1. -/
theorem convolve_hrf_scale_max_one (stim : Stim ℝ) (trd tres : ℚ) (ht : HrfType ℝ)
    (h : List ℝ) (j : ℕ) (hsz : 1 ≤ pyInt (tres * trd))
    (hdur : (pyInt (tres * trd)).toNat ≤ stim.nrows)
    (hh : hrfOf rpowFn Real.exp ht tres = some h) (hne : h ≠ [])
    (hj : j < stim.ncols)
    (hmax : 0 < listMax (colVox (stimColumn stim j) h
      (stim.nrows / (pyInt (tres * trd)).toNat) (pyInt (tres * trd)).toNat)) :
    ∃ cols, convolve_hrfR stim trd ht true tres = Except.ok cols ∧
      listMax (pyVals (cols.getD j [])) = 1 := by
  refine ⟨_, convolve_hrf_ok_scale rpowFn Real.exp stim trd tres ht h hsz (by omega)
    hh hdur hne, ?_⟩
  rw [getD_map_range _ _ _ _ hj, pyVals_scaleVox _ (ne_of_gt hmax),
    listMax_map_div _ _ hmax, div_self (ne_of_gt hmax)]

theorem convolve_hrf_scale_max_one_witness :
    ∃ cols, convolve_hrfR ⟨1, 1, fun _ _ => 1⟩ 1 (HrfType.explicit_list [1]) true 1 =
        Except.ok cols ∧
      listMax (pyVals (cols.getD 0 [])) = 1 := by
  have hp : (pyInt ((1 : ℚ) * 1)).toNat = 1 := by norm_num [pyInt]
  refine convolve_hrf_scale_max_one ⟨1, 1, fun _ _ => 1⟩ 1 1
    (HrfType.explicit_list [1]) [1] 0 (by norm_num [pyInt]) (by norm_num [pyInt]) rfl
    (by simp) (by norm_num) ?_
  rw [hp]
  norm_num [stimColumn, listRange_one, colVox_single, listMax]

/-- Counterexample to claim C4 as stated: with the explicit HRF `[1]`, a
single column `[-2, 1]` has pre-scaling downsampled vector `[-2, 1]` — not
all-zero, maximum 1 — but the scaled output column `[-2, 1]` has maximum
absolute value 2, not 1. -/
theorem convolve_hrf_scale_maxabs_cex :
    colVox (stimColumn (⟨2, 1, fun r _ => if r = 0 then -2 else 1⟩ : Stim ℝ) 0) [1]
        (2 / (pyInt (1 * 1)).toNat) (pyInt (1 * 1)).toNat = [-2, 1] ∧
      ¬([(-2 : ℝ), 1] = List.replicate 2 0) ∧
      convolve_hrfR ⟨2, 1, fun r _ => if r = 0 then -2 else 1⟩ 1
          (HrfType.explicit_list [1]) true 1 =
        Except.ok [[PyVal.val (-2), PyVal.val 1]] ∧
      listMaxAbs (pyVals [PyVal.val (-2), PyVal.val (1 : ℝ)]) ≠ 1 := by
  have hp : (pyInt ((1 : ℚ) * 1)).toNat = 1 := by norm_num [pyInt]
  have hcol : stimColumn (⟨2, 1, fun r _ => if r = 0 then -2 else 1⟩ : Stim ℝ) 0 =
      [-2, 1] := by
    norm_num [stimColumn, List.range_succ, listRange_one]
  have hvox : colVox [(-2 : ℝ), 1] [1] 2 1 = [-2, 1] := by
    rw [colVox, pySliceStep, npConvolve_pair_single]
    norm_num [everyNth_one]
  have hmaxlist : listMax [(-2 : ℝ), 1] = 1 := by
    norm_num [listMax]
  refine ⟨?_, ?_, ?_, ?_⟩
  · rw [hp, hcol]
    norm_num [hvox]
  · rw [show List.replicate 2 (0 : ℝ) = [0, 0] from rfl]
    norm_num
  · have hchar := convolve_hrf_ok_scale rpowFn Real.exp
      ⟨2, 1, fun r _ => if r = 0 then -2 else 1⟩ 1 1 (HrfType.explicit_list [1]) [1]
      (by norm_num [pyInt]) (by norm_num) rfl (by norm_num [pyInt]) (by simp)
    unfold convolve_hrfR
    rw [hchar, hp]
    norm_num [listRange_one, hcol, hvox, scaleVox, hmaxlist, npDiv]
  · have h1 : pyVals [PyVal.val (-2), PyVal.val (1 : ℝ)] = [-2, 1] := rfl
    rw [listMaxAbs, h1]
    have h2 : ([(-2 : ℝ), 1]).map (fun x => |x|) = [2, 1] := by norm_num
    rw [h2]
    have h3 : listMax [(2 : ℝ), 1] = 2 := by
      simp only [listMax, List.foldl_cons, List.foldl_nil]
      rw [max_eq_left (by norm_num : (1 : ℝ) ≤ 2)]
    rw [h3]
    norm_num

/-- Claim C7: with `scale_function = false` the output is linear in the
input: multiplying input column `j` pointwise by a scalar multiplies output
column `j` pointwise by the same scalar and leaves every other output column
unchanged. -/
theorem convolve_hrf_noscale_linear (stim : Stim ℝ) (trd tres : ℚ) (ht : HrfType ℝ)
    (a : ℝ) (j : ℕ) (cols : List (List (PyVal ℝ)))
    (hok : convolve_hrfR stim trd ht false tres = Except.ok cols) :
    convolve_hrfR ⟨stim.nrows, stim.ncols,
        fun r c => if c = j then a * stim.entry r c else stim.entry r c⟩ trd ht false
        tres =
      Except.ok ((List.range stim.ncols).map (fun c =>
        if c = j then (cols.getD c []).map (scalePyVal a) else cols.getD c [])) := by
  unfold convolve_hrfR at hok
  obtain ⟨hsz, hc, h, hh, hr, hne⟩ := convolve_hrf_ok_inv rpowFn Real.exp stim trd tres
    ht false cols hok
  have hchar := convolve_hrf_ok_noscale rpowFn Real.exp stim trd tres ht h hsz hc hh
    hr hne
  have hcols : cols = (List.range stim.ncols).map (fun c =>
      (colVox (stimColumn stim c) h (stim.nrows / (pyInt (tres * trd)).toNat)
        (pyInt (tres * trd)).toNat).map PyVal.val) := by
    have htr := hok.symm.trans hchar
    exact Except.ok.inj htr
  have hchar2 := convolve_hrf_ok_noscale rpowFn Real.exp
    ⟨stim.nrows, stim.ncols,
      fun r c => if c = j then a * stim.entry r c else stim.entry r c⟩ trd tres ht h
    hsz hc hh hr hne
  unfold convolve_hrfR
  rw [hchar2]
  congr 1
  apply List.map_congr_left
  intro c hcr
  have hclt : c < stim.ncols := List.mem_range.mp hcr
  by_cases hcj : c = j
  · subst hcj
    rw [if_pos rfl]
    have hcol2 : stimColumn (⟨stim.nrows, stim.ncols,
        fun r c2 => if c2 = c then a * stim.entry r c2 else stim.entry r c2⟩ : Stim ℝ)
        c = (stimColumn stim c).map (fun x => a * x) := by
      simp [stimColumn, List.map_map]
    rw [hcol2, colVox_map_mul, hcols, getD_map_range _ _ _ _ hclt, List.map_map,
      List.map_map]
    apply List.map_congr_left
    intro x _
    rfl
  · rw [if_neg hcj]
    have hcol2 : stimColumn (⟨stim.nrows, stim.ncols,
        fun r c2 => if c2 = j then a * stim.entry r c2 else stim.entry r c2⟩ : Stim ℝ)
        c = stimColumn stim c := by
      simp [stimColumn, hcj]
    rw [hcol2, hcols, getD_map_range _ _ _ _ hclt]

theorem convolve_hrf_noscale_linear_witness :
    convolve_hrfR ⟨1, 1, fun r c => if c = 0 then 5 * (3 : ℝ) else 3⟩ 1
        (HrfType.explicit_list [2]) false 1 =
      Except.ok ((List.range 1).map (fun c =>
        if c = 0 then ([[PyVal.val (6 : ℝ)]].getD c []).map (scalePyVal 5)
        else [[PyVal.val (6 : ℝ)]].getD c [])) := by
  have hp : (pyInt ((1 : ℚ) * 1)).toNat = 1 := by norm_num [pyInt]
  have hok : convolve_hrfR ⟨1, 1, fun _ _ => (3 : ℝ)⟩ 1 (HrfType.explicit_list [2])
      false 1 = Except.ok [[PyVal.val 6]] := by
    have hchar := convolve_hrf_ok_noscale rpowFn Real.exp ⟨1, 1, fun _ _ => (3 : ℝ)⟩
      1 1 (HrfType.explicit_list [2]) [2] (by norm_num [pyInt]) (by norm_num) rfl
      (by norm_num) (by simp)
    unfold convolve_hrfR
    rw [hchar, hp]
    norm_num [listRange_one, stimColumn, colVox_single]
  exact convolve_hrf_noscale_linear ⟨1, 1, fun _ _ => 3⟩ 1 1
    (HrfType.explicit_list [2]) 5 0 [[PyVal.val 6]] hok
